import Mathlib

/-!
Verification of the namespaced-storage quick-fix engine of the
`openzeppelin-vscode` extension (server/src/quickfixes.ts).

Text is modelled as `List Char`.  Ranges are kept in a single offset-based
coordinate system: the external position-range translator
(`slangToVSCodeRange`, helpers/slang.ts, a collaborator outside the core)
is the identity on it.  The syntax tree is consumed by the engine only
through a handful of cursor queries; a contract node is therefore modelled
by the data those queries return: its name, whether its reconstituted text
re-parses without errors, its terminal leaves (kind, text, range) in
traversal order, and its function-body nodes (range and reconstituted
text) in traversal order.
-/

namespace OZQuickFix

/-- Word characters of a JavaScript regular expression (`\w`),
i.e. ASCII letters, digits and underscore. -/
def isWordChar (c : Char) : Bool :=
  c.isAlpha || c.isDigit || c = '_'

/-- Boolean prefix test on character lists (`pat` is a prefix of `text`). -/
def isPre : List Char → List Char → Bool
  | [], _ => true
  | _ :: _, [] => false
  | a :: as, b :: bs => a == b && isPre as bs

/-- Boolean substring test, the embedding of JavaScript
`text.includes(pat)`. -/
def containsSubB : List Char → List Char → Bool
  | [], pat => pat.isEmpty
  | c :: rest, pat => isPre pat (c :: rest) || containsSubB rest pat

/-- Number of starting positions at which `pat` occurs in the text. -/
def countSub (pat : List Char) : List Char → Nat
  | [] => if pat.isEmpty then 1 else 0
  | c :: rest => (if isPre pat (c :: rest) then 1 else 0) + countSub pat rest

/-- Index of the first `'\x7b'` in the text, the embedding of JavaScript
`text.indexOf('\x7b')` (with `none` for `-1`). -/
def idxOfBrace : List Char → Option Nat
  | [] => none
  | c :: rest => if c = '{' then some 0 else (idxOfBrace rest).map (· + 1)

/-- A text range in the single offset coordinate system; `start` and `stop`
are the offsets of the range's first and one-past-last character. -/
structure TRange where
  start : Nat
  stop : Nat
deriving DecidableEq

/-- Kinds of terminal leaves the engine queries for
(`TerminalKind.SingleLineNatSpecComment`, `TerminalKind.CloseBrace`; every
other terminal kind is irrelevant to it). -/
inductive TKind where
  | singleLineNatSpecComment
  | closeBrace
  | other
deriving DecidableEq

/-- A terminal leaf of the parsed contract: kind, text and range. -/
structure Leaf where
  kind : TKind
  text : List Char
  range : TRange
deriving DecidableEq

/-- A migration-candidate state variable (namespace.ts data model): name,
literal declaration text, and range in the original document. -/
structure Variable where
  name : List Char
  content : List Char
  range : TRange
deriving DecidableEq

/-- One text edit of the produced workspace edit: a range of the original
document and its replacement text. -/
structure TextEdit where
  range : TRange
  newText : List Char
deriving DecidableEq

/-- A diagnostic is opaque to the engine; it is only carried through into
the produced code action. -/
structure Diagnostic where
  code : Nat
deriving DecidableEq

/-- A namespace description (namespace.ts data model). -/
structure Namespace where
  contractName : List Char
  pfx : List Char
  vars : List Variable
deriving DecidableEq

/-- A contract-definition node, as seen through the cursor queries the
engine performs on it. `validReparse` records whether
`language.parse(NonterminalKind.ContractDefinition, node.unparse())`
is valid; `leaves` are the terminal leaves of the subtree in traversal
order; `functionBodies` are the `FunctionBody` nonterminals in traversal
order, each with its range and reconstituted text; `crange` is the node's
own text range (returned by a cursor that found no requested leaf). -/
structure ContractNode where
  name : List Char
  validReparse : Bool
  leaves : List Leaf
  functionBodies : List (TRange × List Char)
  crange : TRange
deriving DecidableEq

/-- The parsed source document: its identity (uri) and its
contract-definition nodes in traversal order. -/
structure Document where
  uri : List Char
  contracts : List ContractNode
deriving DecidableEq

/-- The produced quick fix (`CodeAction`): title, the document the edits
apply to, the ordered edit list, and the diagnostics it fixes.  The kind
is constantly `QuickFix` and is omitted. -/
structure CodeAction where
  title : List Char
  uri : List Char
  edits : List TextEdit
  diagnostics : List Diagnostic
deriving DecidableEq

/-- Modelled from the spec: `NamespaceCatalog.getNamespaceId` lives in
namespace.ts, which is not under src/.  The spec says only that it
"produces a stable namespace identifier string" from a prefix and a
contract name; we model it as the dotted concatenation of the two.  No
claim depends on its internal form: it is used identically by the code
and by the claims. -/
def getNamespaceId (pfx contractName : List Char) : List Char :=
  pfx ++ '.' :: contractName

/-- Modelled from the spec: `NamespaceCatalog.printNamespaceTemplate`
lives in namespace.ts, which is not under src/.  The spec says it produces
"ready-to-insert source text for the container and its accessor function"
tagged with the namespace id; its exact text matters to no claim, which
only compare it for identity, so we model a representative template. -/
def printNamespaceTemplate (ns : Namespace) : List Char :=
  "/// @custom:storage-location erc7201:".toList
    ++ getNamespaceId ns.pfx ns.contractName
    ++ "\nstruct ".toList ++ ns.contractName ++ "Storage \x7b\n".toList
    ++ ns.vars.flatMap (fun v => "    ".toList ++ v.content ++ ['\n'])
    ++ "\x7d\n".toList
    ++ "function _get".toList ++ ns.contractName ++ "Storage() \x7b ... \x7d\n".toList

/-- Modelled from the spec: the position-range translator
(helpers/slang.ts, not under src/) maps internal text offsets to
host-displayable coordinates; on the single offset coordinate system used
here it is the identity. -/
def slangToVSCodeRange (r : TRange) : TRange := r

/-- Match of the regular expression `\b<name>\b` at the head of `text`,
where `prev` is the character preceding `text` in the scanned string
(`none` at its start).  For a name made of word characters — a Solidity
identifier, the only names the diagnostic layer supplies — the boundary
`\b` holds exactly when the neighbouring character is absent or a
non-word character.  An empty name never matches (the engine is never
given one). -/
def wwMatch (name text : List Char) (prev : Option Char) : Bool :=
  !name.isEmpty
    && (match prev with | none => true | some c => !isWordChar c)
    && isPre name text
    && (match text.drop name.length with | [] => true | c :: _ => !isWordChar c)

/-- Scanner of `replacement.replace(new RegExp("\b" + name + "\b", "g"),
"$." + name)`: walks the text left to right; at a match it emits
`$.<name>` and skips the matched characters (`k` counts characters still
to skip), otherwise it copies one character.  `prev` is the previously
scanned character of the input, which is what the JavaScript engine
consults for `\b`. -/
def replaceWWGo (name : List Char) : Option Char → Nat → List Char → List Char
  | _, _, [] => []
  | _, k + 1, c :: rest => replaceWWGo name (some c) k rest
  | prev, 0, c :: rest =>
    if wwMatch name (c :: rest) prev then
      '$' :: '.' :: name ++ replaceWWGo name (some c) (name.length - 1) rest
    else
      c :: replaceWWGo name (some c) 0 rest

/-- Global whole-word replacement of `name` by `$.<name>`
(quickfixes.ts line 156–157). -/
def replaceWholeWord (name text : List Char) : List Char :=
  replaceWWGo name none 0 text

/-- The `variables.forEach` loop of quickfixes.ts lines 155–158: the
replacement text is threaded through the per-variable whole-word
rewrites in variable order. -/
def foldReplace (vars : List Variable) (text : List Char) : List Char :=
  vars.foldl (fun acc v => replaceWholeWord v.name acc) text

/-- The literal accessor-binding line
`<ContractName>Storage storage $ = _get<ContractName>Storage();`
(quickfixes.ts line 151). -/
def expectedLine (contractName : List Char) : List Char :=
  contractName ++ "Storage storage $ = _get".toList
    ++ contractName ++ "Storage();".toList

/-- Insertion of the accessor-binding line after the first opening brace
(quickfixes.ts lines 162–163): `slice(0, i) + "\x7b\n        " + line +
"\n" + slice(i + 1)`.  When no brace exists, `indexOf` yields `-1`, and
the JavaScript slices degenerate to `dropLast` and the whole string. -/
def insertAccessorLine (contractName replacement : List Char) : List Char :=
  match idxOfBrace replacement with
  | some i =>
      replacement.take i
        ++ '{' :: '\n' :: "        ".toList
        ++ expectedLine contractName
        ++ '\n' :: replacement.drop (i + 1)
  | none =>
      replacement.dropLast
        ++ '{' :: '\n' :: "        ".toList
        ++ expectedLine contractName
        ++ '\n' :: replacement

/-- Rewrite of one function body's text (quickfixes.ts lines 150–164):
replace all whole-word variable references with `$.`-prefixed ones; if
that changed anything and the accessor-binding line is not already
present verbatim, insert the line after the opening brace. -/
def rewriteFunctionBody (contractName : List Char) (vars : List Variable)
    (functionText : List Char) : List Char :=
  let replacement := foldReplace vars functionText
  if replacement ≠ functionText
      ∧ containsSubB replacement (expectedLine contractName) = false then
    insertAccessorLine contractName replacement
  else
    replacement

/-- The function-body loop of `editNamespaceVariablesInFunctions`
(quickfixes.ts lines 142–174): for every `FunctionBody` node one edit is
pushed, whose range is the body's range and whose new text is the
rewritten body text. -/
def editNamespaceVariablesInFunctions (contractName : List Char)
    (vars : List Variable) (bodies : List (TRange × List Char)) :
    List TextEdit :=
  bodies.map fun b =>
    ⟨slangToVSCodeRange b.1, rewriteFunctionBody contractName vars b.2⟩

/-- First leaf of the given kind in traversal order, the embedding of
`cursor.spawn(); cursor.goToNextTerminalWithKind(kind)` from the
contract's start. -/
def firstLeafOfKind : List Leaf → TKind → Option Leaf
  | [], _ => none
  | l :: rest, k => if l.kind = k then some l else firstLeafOfKind rest k

/-- Leaves strictly after the first leaf of the given kind (empty when no
such leaf exists). -/
def leavesAfterFirst : List Leaf → TKind → List Leaf
  | [], _ => []
  | l :: rest, k => if l.kind = k then rest else leavesAfterFirst rest k

/-- The tag text looked for in the documentation comment
(quickfixes.ts line 132). -/
def nsTag (pfx contractName : List Char) : List Char :=
  "@custom:storage-location erc7201:".toList ++ getNamespaceId pfx contractName

/-- `getNamespaceStructEndRange` (quickfixes.ts lines 125–140): spawn a
cursor from the contract's start and move it to the first single-line
NatSpec comment leaf; when none exists the cursor does not reach a
terminal and the `instanceof TerminalNode` test fails, yielding
`undefined`.  When the comment's text contains the namespace tag, spawn a
second cursor — again from the contract's start — move it to the first
close-brace leaf and return that cursor's range (when even that leaf is
missing, the unmoved cursor's range is the contract node's own range). -/
def getNamespaceStructEndRange (c : ContractNode) (pfx contractName : List Char) :
    Option TRange :=
  match firstLeafOfKind c.leaves TKind.singleLineNatSpecComment with
  | none => none
  | some l =>
    if containsSubB l.text (nsTag pfx contractName) then
      match firstLeafOfKind c.leaves TKind.closeBrace with
      | some cb => some cb.range
      | none => some c.crange
    else
      none

/-- Modelled from the spec: the detector of §4.2 as the spec words it —
after finding the matching documentation comment it "advances to the next
closing-delimiter leaf", i.e. to the first close-brace leaf AFTER the
comment, "and returns its range as the insertion point"; stated here only
to be compared with `getNamespaceStructEndRange`, the detector the code
implements. -/
def detectAsSpecified (c : ContractNode) (pfx contractName : List Char) :
    Option TRange :=
  match firstLeafOfKind c.leaves TKind.singleLineNatSpecComment with
  | none => none
  | some l =>
    if containsSubB l.text (nsTag pfx contractName) then
      (firstLeafOfKind (leavesAfterFirst c.leaves TKind.singleLineNatSpecComment)
        TKind.closeBrace).map Leaf.range
    else
      none

/-- The contract-location loop of `getMoveAllVariablesToNamespaceQuickFix`
(quickfixes.ts lines 32–57): advance over contract-definition nodes in
traversal order; skip a node whose reconstituted text does not re-parse
as valid (`continue`), skip a node whose name differs from the requested
one (`continue`), and stop at the first remaining node (`break`). -/
def locateContract : List ContractNode → List Char → Option ContractNode
  | [], _ => none
  | c :: rest, contractName =>
    if c.validReparse = false then
      locateContract rest contractName
    else if c.name ≠ contractName then
      locateContract rest contractName
    else
      some c

/-- `editNewNamespace` (quickfixes.ts lines 81–102): replace the first
variable's range with the printed namespace template, then push one
empty-text edit for each remaining variable.  The code indexes
`variables[0]` and is only reached with a non-empty list; on an empty
list no edit is produced. -/
def editNewNamespace (pfx contractName : List Char) (vars : List Variable) :
    List TextEdit :=
  match vars with
  | [] => []
  | v :: rest =>
    ⟨v.range, printNamespaceTemplate ⟨contractName, pfx, v :: rest⟩⟩
      :: rest.map fun w => ⟨w.range, []⟩

/-- The indentation string of `editExistingNamespace`'s default `indent`
parameter (never overridden by a caller). -/
def defaultIndent : List Char := "    ".toList

/-- `editExistingNamespace` (quickfixes.ts lines 104–122): for every
variable, in declaration order, push one empty-text edit at the
variable's range and one edit at the (translated) struct-end range whose
new text is the indented declaration followed by an indented closing
brace on the next line. -/
def editExistingNamespace (vars : List Variable) (structEndRange : TRange) :
    List TextEdit :=
  match vars with
  | [] => []
  | v :: rest =>
    ⟨v.range, []⟩
      :: ⟨slangToVSCodeRange structEndRange,
          defaultIndent ++ v.content ++ '\n' :: defaultIndent ++ ['}']⟩
      :: editExistingNamespace rest structEndRange

/-- Function-body edits of the whole invocation: they are produced inside
the location loop, for the located contract only. -/
def bodyEditsFor (contractName : List Char) (vars : List Variable) :
    Option ContractNode → List TextEdit
  | some c => editNamespaceVariablesInFunctions contractName vars c.functionBodies
  | none => []

/-- `getMoveAllVariablesToNamespaceQuickFix` (quickfixes.ts lines
20–123): locate the contract; for the located contract compute the
struct-end range and the function-body edits; return no fix when the
variable list is empty; otherwise append the container edits of the
strategy selected by the detection result and wrap everything in a code
action carrying the given title and diagnostics. -/
def getMoveAllVariablesToNamespaceQuickFix (diags : List Diagnostic)
    (title pfx contractName : List Char) (vars : List Variable)
    (doc : Document) : Option CodeAction :=
  let found := locateContract doc.contracts contractName
  let namespaceStructEndRange :=
    found.bind fun c => getNamespaceStructEndRange c pfx contractName
  let edits := bodyEditsFor contractName vars found
  if vars.length = 0 then
    none
  else
    let containerEdits :=
      match namespaceStructEndRange with
      | none => editNewNamespace pfx contractName vars
      | some r => editExistingNamespace vars r
    some ⟨title, doc.uri, edits ++ containerEdits, diags⟩

/-- Interval overlap of two ranges: each starts before the other stops.
Two identical non-empty ranges overlap; an empty range overlaps
nothing. -/
def overlapsB (r s : TRange) : Bool :=
  decide (r.start < s.stop) && decide (s.start < r.stop)

/-- Pairwise non-overlap of the ranges of an edit batch. -/
def pairwiseNonOverlap : List TextEdit → Bool
  | [] => true
  | e :: rest =>
    rest.all (fun f => !overlapsB e.range f.range) && pairwiseNonOverlap rest

/-- Edit list of an optional fix (empty when no fix is returned). -/
def fixEdits : Option CodeAction → List TextEdit
  | none => []
  | some ca => ca.edits

/-! ### Lemmas about prefix tests and substring counts -/

theorem isPre_refl (p : List Char) : isPre p p = true := by
  induction p with
  | nil => rfl
  | cons a as ih => simp [isPre, ih]

theorem isPre_length {p t : List Char} (h : isPre p t = true) :
    p.length ≤ t.length := by
  induction p generalizing t with
  | nil => simp
  | cons a as ih =>
    cases t with
    | nil => simp [isPre] at h
    | cons b bs =>
      simp only [isPre, Bool.and_eq_true] at h
      simpa using Nat.succ_le_succ (ih h.2)

theorem isPre_append_right {p A : List Char} (B : List Char)
    (h : isPre p A = true) : isPre p (A ++ B) = true := by
  induction p generalizing A with
  | nil => rfl
  | cons a as ih =>
    cases A with
    | nil => simp [isPre] at h
    | cons b bs =>
      simp only [isPre, Bool.and_eq_true] at h
      simp only [List.cons_append, isPre, Bool.and_eq_true]
      exact ⟨h.1, ih h.2⟩

theorem isPre_append_barrier {c : Char} {P : List Char} (hc : c ∉ P)
    (A B : List Char) : isPre P (A ++ c :: B) = isPre P A := by
  induction A generalizing P with
  | nil =>
    cases P with
    | nil => rfl
    | cons p ps =>
      have hpc : (p == c) = false := by
        simp only [List.mem_cons, not_or] at hc
        simp [Ne.symm hc.1]
      simp [isPre, hpc]
  | cons a A' ih =>
    cases P with
    | nil => rfl
    | cons p ps =>
      have hc' : c ∉ ps := by
        simp only [List.mem_cons, not_or] at hc
        exact hc.2
      simp [isPre, ih hc']

theorem countSub_nil {P : List Char} (hP : P ≠ []) : countSub P [] = 0 := by
  cases P with
  | nil => exact absurd rfl hP
  | cons p ps => rfl

theorem countSub_split {P : List Char} (hP : P ≠ []) {c : Char} (hc : c ∉ P)
    (A B : List Char) :
    countSub P (A ++ c :: B) = countSub P A + countSub P B := by
  induction A with
  | nil =>
    have h1 : isPre P (c :: B) = false := by
      have hb := isPre_append_barrier hc [] B
      simp only [List.nil_append] at hb
      rw [hb]
      cases P with
      | nil => exact absurd rfl hP
      | cons p ps => rfl
    have h3 : P.isEmpty = false := by
      cases P with
      | nil => exact absurd rfl hP
      | cons p ps => rfl
    simp [countSub, h1, h3]
  | cons a A' ih =>
    have h1 : isPre P ((a :: A') ++ c :: B) = isPre P (a :: A') :=
      isPre_append_barrier hc (a :: A') B
    calc countSub P ((a :: A') ++ c :: B)
        = (if isPre P ((a :: A') ++ c :: B) = true then 1 else 0)
            + countSub P (A' ++ c :: B) := rfl
      _ = (if isPre P (a :: A') = true then 1 else 0)
            + (countSub P A' + countSub P B) := by rw [h1, ih]
      _ = ((if isPre P (a :: A') = true then 1 else 0)
            + countSub P A') + countSub P B := by omega
      _ = countSub P (a :: A') + countSub P B := rfl

theorem countSub_short {P t : List Char} (h : t.length < P.length) :
    countSub P t = 0 := by
  induction t with
  | nil =>
    have hP : P ≠ [] := by
      intro he
      rw [he] at h
      simp at h
    exact countSub_nil hP
  | cons c rest ih =>
    have hpre : isPre P (c :: rest) = false := by
      cases hp : isPre P (c :: rest) with
      | false => rfl
      | true =>
        have := isPre_length hp
        simp only [List.length_cons] at this h
        omega
    have hrest : countSub P rest = 0 := by
      apply ih
      simp only [List.length_cons] at h
      omega
    simp [countSub, hpre, hrest]

theorem countSub_self_after_pad {p : Char} {ps : List Char} (pad : List Char)
    (hpad : ∀ c ∈ pad, c ≠ p) : countSub (p :: ps) (pad ++ p :: ps) = 1 := by
  induction pad with
  | nil =>
    simp only [List.nil_append, countSub]
    rw [isPre_refl, countSub_short (by simp)]
    simp
  | cons c pad' ih =>
    have hcp : (p == c) = false := by
      simp [Ne.symm (hpad c (List.mem_cons_self c pad'))]
    have ih' := ih fun d hd => hpad d (List.mem_cons_of_mem c hd)
    calc countSub (p :: ps) ((c :: pad') ++ p :: ps)
        = (if isPre (p :: ps) ((c :: pad') ++ p :: ps) = true then 1 else 0)
            + countSub (p :: ps) (pad' ++ p :: ps) := rfl
      _ = 0 + 1 := by
          rw [ih']
          congr 1
          simp only [List.cons_append, isPre, hcp, Bool.false_and, if_neg]
          simp
      _ = 1 := by omega

theorem countSub_le_append_right {P : List Char} (hP : P ≠ []) (A B : List Char) :
    countSub P A ≤ countSub P (A ++ B) := by
  induction A with
  | nil => simp [countSub_nil hP]
  | cons a A' ih =>
    have e1 : countSub P (a :: A')
        = (if isPre P (a :: A') = true then 1 else 0) + countSub P A' := rfl
    have e2 : countSub P ((a :: A') ++ B)
        = (if isPre P ((a :: A') ++ B) = true then 1 else 0)
            + countSub P (A' ++ B) := rfl
    have hif : (if isPre P (a :: A') = true then 1 else 0)
        ≤ (if isPre P ((a :: A') ++ B) = true then 1 else 0) := by
      cases hp : isPre P (a :: A') with
      | false => simp
      | true =>
        have h2 : isPre P ((a :: A') ++ B) = true := isPre_append_right B hp
        simp only [List.cons_append] at h2
        simp [h2]
    rw [e1, e2]
    omega

theorem countSub_le_append_left (P A B : List Char) :
    countSub P B ≤ countSub P (A ++ B) := by
  induction A with
  | nil => simp
  | cons a A' ih =>
    have e2 : countSub P ((a :: A') ++ B)
        = (if isPre P ((a :: A') ++ B) = true then 1 else 0)
            + countSub P (A' ++ B) := rfl
    rw [e2]
    omega

theorem containsSubB_iff_countSub {t P : List Char} :
    containsSubB t P = true ↔ countSub P t ≠ 0 := by
  induction t with
  | nil =>
    cases hP : P.isEmpty with
    | true =>
      have : P = [] := List.isEmpty_iff.mp hP
      simp [containsSubB, countSub, this]
    | false => simp [containsSubB, countSub, hP]
  | cons c rest ih =>
    cases h : isPre P (c :: rest) with
    | true => simp [containsSubB, countSub, h]
    | false => simpa [containsSubB, countSub, h] using ih

theorem idxOfBrace_decomp {t : List Char} {i : Nat} (h : idxOfBrace t = some i) :
    t = t.take i ++ '{' :: t.drop (i + 1) := by
  induction t generalizing i with
  | nil => simp [idxOfBrace] at h
  | cons c rest ih =>
    by_cases hc : c = '{'
    · simp only [idxOfBrace, if_pos hc, Option.some.injEq] at h
      subst h
      simp [hc]
    · simp only [idxOfBrace, if_neg hc, Option.map_eq_some'] at h
      obtain ⟨j, hj, rfl⟩ := h
      simp only [List.take_succ_cons, List.drop_succ_cons, List.cons_append]
      exact congrArg (List.cons c) (ih hj)

theorem not_mem_of_all_word {cn : List Char} (hcn : cn.all isWordChar = true)
    {c : Char} (hc : isWordChar c = false) : c ∉ cn := by
  intro hmem
  have := List.all_eq_true.mp hcn c hmem
  rw [hc] at this
  exact Bool.false_ne_true this

theorem char_not_mem_expectedLine {cn : List Char} (hcn : cn.all isWordChar = true)
    {c : Char} (hc : isWordChar c = false)
    (h1 : c ∉ "Storage storage $ = _get".toList)
    (h2 : c ∉ "Storage();".toList) : c ∉ expectedLine cn := by
  have hcn' : c ∉ cn := not_mem_of_all_word hcn hc
  unfold expectedLine
  simp only [List.mem_append, not_or]
  exact ⟨⟨⟨hcn', h1⟩, hcn'⟩, h2⟩

theorem countSub_cons_notmem {P : List Char} (hP : P ≠ []) {c : Char}
    (hc : c ∉ P) (B : List Char) : countSub P (c :: B) = countSub P B := by
  have h := countSub_split hP hc [] B
  simpa [countSub_nil hP] using h

theorem countSub_insertAccessorLine {cn T : List Char} {i : Nat}
    (hcn0 : cn ≠ []) (hcnw : cn.all isWordChar = true)
    (hbrace : idxOfBrace T = some i)
    (h0 : countSub (expectedLine cn) T = 0) :
    countSub (expectedLine cn) (insertAccessorLine cn T) = 1 := by
  obtain ⟨c0, cs, rfl⟩ : ∃ c0 cs, cn = c0 :: cs := by
    cases cn with
    | nil => exact absurd rfl hcn0
    | cons c0 cs => exact ⟨c0, cs, rfl⟩
  have hbr : '{' ∉ expectedLine (c0 :: cs) :=
    char_not_mem_expectedLine hcnw (by decide) (by decide) (by decide)
  have hnl : '\n' ∉ expectedLine (c0 :: cs) :=
    char_not_mem_expectedLine hcnw (by decide) (by decide) (by decide)
  obtain ⟨ps, hPeq⟩ : ∃ ps, expectedLine (c0 :: cs) = c0 :: ps :=
    ⟨cs ++ "Storage storage $ = _get".toList ++ (c0 :: cs) ++ "Storage();".toList,
      by simp [expectedLine]⟩
  have hPne : expectedLine (c0 :: cs) ≠ [] := by rw [hPeq]; simp
  have hc0w : isWordChar c0 = true :=
    List.all_eq_true.mp hcnw c0 (List.mem_cons_self _ _)
  have hsp : ∀ c ∈ "        ".toList, c = ' ' := by decide
  have hpad : ∀ c ∈ "        ".toList, c ≠ c0 := by
    intro c hcmem heq
    rw [hsp c hcmem] at heq
    rw [← heq] at hc0w
    exact absurd hc0w (by decide)
  have hone : countSub (expectedLine (c0 :: cs))
      ("        ".toList ++ expectedLine (c0 :: cs)) = 1 := by
    conv_lhs => rw [hPeq]
    exact countSub_self_after_pad _ hpad
  have hTdec : T = T.take i ++ '{' :: T.drop (i + 1) := idxOfBrace_decomp hbrace
  have hTsplit : countSub (expectedLine (c0 :: cs)) (T.take i) = 0 ∧
      countSub (expectedLine (c0 :: cs)) (T.drop (i + 1)) = 0 := by
    have h := countSub_split hPne hbr (T.take i) (T.drop (i + 1))
    rw [← hTdec] at h
    exact ⟨by omega, by omega⟩
  simp only [insertAccessorLine, hbrace]
  simp only [List.append_assoc, List.cons_append]
  rw [countSub_split hPne hbr]
  rw [countSub_cons_notmem hPne hnl]
  rw [← List.append_assoc]
  rw [countSub_split hPne hnl]
  rw [hone, hTsplit.1, hTsplit.2]

/-! ### Claims -/

/-- C7: every function body that lexically contains at least one
whole-word reference to a migrated variable — rendered by the code's own
criterion, "any replacement occurred", i.e. the whole-word rewrite changed
the body text — receives exactly one accessor-binding line
`<ContractName>Storage storage $ = _get<ContractName>Storage();`,
inserted immediately after the body's opening delimiter, regardless of
how many occurrences the body contains and whether the line was already
present verbatim.  Hypotheses: the contract name is a nonempty
identifier, the (rewritten) body has an opening brace, and the line was
present at most once beforehand — a body that already carried two copies
could keep both, which no rewrite of this shape can repair. -/
theorem C7_accessor_line_exactly_once
    (cn : List Char) (vars : List Variable) (body : List Char) (i : Nat)
    (hcn0 : cn ≠ []) (hcnw : cn.all isWordChar = true)
    (hchg : foldReplace vars body ≠ body)
    (hbrace : idxOfBrace (foldReplace vars body) = some i)
    (hcount : countSub (expectedLine cn) (foldReplace vars body) ≤ 1) :
    countSub (expectedLine cn) (rewriteFunctionBody cn vars body) = 1 ∧
    (countSub (expectedLine cn) (foldReplace vars body) = 0 →
      rewriteFunctionBody cn vars body =
        (foldReplace vars body).take i
          ++ '{' :: '\n' :: "        ".toList
          ++ expectedLine cn
          ++ '\n' :: (foldReplace vars body).drop (i + 1)) := by
  rcases Nat.le_one_iff_eq_zero_or_eq_one.mp hcount with h0 | h1
  · have hcont : containsSubB (foldReplace vars body) (expectedLine cn) = false := by
      cases hcc : containsSubB (foldReplace vars body) (expectedLine cn) with
      | false => rfl
      | true => exact absurd h0 (containsSubB_iff_countSub.mp hcc)
    have hres : rewriteFunctionBody cn vars body
        = insertAccessorLine cn (foldReplace vars body) := by
      simp only [rewriteFunctionBody]
      rw [if_pos ⟨hchg, hcont⟩]
    constructor
    · rw [hres]
      exact countSub_insertAccessorLine hcn0 hcnw hbrace h0
    · intro _
      rw [hres]
      simp only [insertAccessorLine, hbrace]
  · have hcont : containsSubB (foldReplace vars body) (expectedLine cn) = true := by
      apply containsSubB_iff_countSub.mpr
      omega
    have hres : rewriteFunctionBody cn vars body = foldReplace vars body := by
      simp only [rewriteFunctionBody]
      rw [if_neg]
      intro hand
      rw [hcont] at hand
      exact absurd hand.2 (by decide)
    constructor
    · rw [hres]
      exact h1
    · intro h0'
      rw [h0'] at h1
      exact absurd h1 (by decide)

/-- C7 witness: contract `Main`, variable `a`, body `\x7b return a; \x7d`
satisfy the hypotheses, and the rewritten body contains the accessor
line exactly once. -/
theorem C7_witness :
    countSub (expectedLine "Main".toList)
      (rewriteFunctionBody "Main".toList
        [⟨['a'], "uint256 a;".toList, ⟨10, 20⟩⟩] "\x7b return a; \x7d".toList) = 1 :=
  (C7_accessor_line_exactly_once "Main".toList
    [⟨['a'], "uint256 a;".toList, ⟨10, 20⟩⟩] "\x7b return a; \x7d".toList 0
    (by decide) (by decide) (by decide) (by decide) (by decide)).1

/-- Concrete inputs for C1: contract `Main`, migrated variable `a`, and a
function body `\x7b return a; \x7d` referencing it. -/
def c1Var : Variable := ⟨['a'], "uint256 a;".toList, ⟨10, 20⟩⟩

def c1Body : List Char := "\x7b return a; \x7d".toList

/-- The body text after one application of the fix's body rewrite. -/
def c1Once : List Char := rewriteFunctionBody "Main".toList [c1Var] c1Body

/-- C1: the claim (and §4.3/§8 of the spec) asserts that applying the fix
twice yields the same final text as applying it once — in particular that
a body already containing the accessor line and `$.`-prefixed references
receives no further rewriting.  The code violates this: a word boundary
`\b` still exists between `.` and the identifier, so on the second
application `$.a` is rewritten again to `$.$.a` (only the accessor line
is not re-inserted, its literal-presence check does hold).  This theorem
evaluates the code at the failing input: the second application changes
the once-rewritten body, the doubly-prefixed `$.$.a` appears, and the
accessor line stays single. -/
theorem C1_second_application_rewrites_again :
    rewriteFunctionBody "Main".toList [c1Var] c1Once ≠ c1Once ∧
    containsSubB (rewriteFunctionBody "Main".toList [c1Var] c1Once)
      "$.$.a".toList = true ∧
    countSub (expectedLine "Main".toList)
      (rewriteFunctionBody "Main".toList [c1Var] c1Once) = 1 := by
  decide

/-- Concrete inputs for C2: migrated variable `a` and a body that contains
no whole-word occurrence of it. -/
def c2Var : Variable := ⟨['a'], "uint256 a;".toList, ⟨10, 20⟩⟩

def c2Body : List Char := "\x7b return b + 1; \x7d".toList

/-- C2 counterexample: the claim says a function body with no whole-word
occurrence of any migrated variable's name receives no edit, but the loop
pushes one edit per function body unconditionally (quickfixes.ts lines
167–171): the untouched body — the whole-word rewrite leaves it unchanged
— still receives an edit (whose new text equals the original body). -/
theorem C2_counterexample :
    foldReplace [c2Var] c2Body = c2Body ∧
    editNamespaceVariablesInFunctions "Main".toList [c2Var]
      [(⟨100, 120⟩, c2Body)] = [⟨⟨100, 120⟩, c2Body⟩] := by
  decide

/-- C2 amended: every function body receives exactly one edit; a body
whose text the whole-word rewrite leaves unchanged (no whole-word
occurrence of any migrated variable) receives a no-op edit whose new text
equals the original body text, rather than no edit at all. -/
theorem C2_amended_noop_edit :
    (∀ (cn : List Char) (vars : List Variable)
      (bodies : List (TRange × List Char)),
      (editNamespaceVariablesInFunctions cn vars bodies).length
        = bodies.length) ∧
    (∀ (cn : List Char) (vars : List Variable)
      (bodies : List (TRange × List Char)) (b : TRange × List Char),
      b ∈ bodies → foldReplace vars b.2 = b.2 →
      (⟨slangToVSCodeRange b.1, b.2⟩ : TextEdit) ∈
        editNamespaceVariablesInFunctions cn vars bodies) := by
  constructor
  · intro cn vars bodies
    simp [editNamespaceVariablesInFunctions]
  · intro cn vars bodies b hb hno
    have hrw : rewriteFunctionBody cn vars b.2 = b.2 := by
      simp only [rewriteFunctionBody]
      rw [if_neg fun hand => absurd hno hand.1]
      exact hno
    simp only [editNamespaceVariablesInFunctions, List.mem_map]
    exact ⟨b, hb, by simp [hrw]⟩

/-- C2 witness: the amended statement at the concrete inputs of the
counterexample — the unaffected body's no-op edit is in the edit list. -/
theorem C2_witness :
    (⟨⟨100, 120⟩, c2Body⟩ : TextEdit) ∈
      editNamespaceVariablesInFunctions "Main".toList [c2Var]
        [(⟨100, 120⟩, c2Body)] :=
  C2_amended_noop_edit.2 "Main".toList [c2Var] [(⟨100, 120⟩, c2Body)]
    (⟨100, 120⟩, c2Body) (by decide) (by decide)

/-- Concrete inputs for C3: a contract `Main` that already owns a matching
tagged container (its close-brace leaf spans offsets 80–81), and two
migrated variables. -/
def c3Doc : Document :=
  ⟨"file:///box.sol".toList,
    [⟨"Main".toList, true,
      [⟨TKind.singleLineNatSpecComment,
        "/// @custom:storage-location erc7201:box.Main".toList, ⟨30, 76⟩⟩,
       ⟨TKind.closeBrace, ['}'], ⟨80, 81⟩⟩],
      [], ⟨0, 100⟩⟩]⟩

def c3VarA : Variable := ⟨['a'], "uint256 a;".toList, ⟨10, 20⟩⟩

def c3VarB : Variable := ⟨['b'], "address b;".toList, ⟨21, 31⟩⟩

/-- C3 counterexample: the claim says the ranges of a returned fix's edit
batch are pairwise non-overlapping, in particular in the
existing-container strategy with two or more variables.  In exactly that
strategy every insertion edit replaces the same non-empty close-brace
range, so the fix returned for two variables contains two edits with the
identical range 80–81: the batch is not pairwise non-overlapping. -/
theorem C3_counterexample :
    pairwiseNonOverlap (fixEdits (getMoveAllVariablesToNamespaceQuickFix []
      "Move variables".toList "box".toList "Main".toList
      [c3VarA, c3VarB] c3Doc)) = false := by
  decide

/-- C3 amended: the batch is not pairwise non-overlapping in general; in
the existing-container strategy every edit either deletes a variable
(empty new text) or carries exactly the one (translated) struct-end range
as supplied, so with two or more variables the insertion edits share one
identical non-empty range. -/
theorem C3_amended_insertions_share_range
    (vars : List Variable) (R : TRange) (e : TextEdit)
    (he : e ∈ editExistingNamespace vars R) :
    e.newText = [] ∨ e.range = slangToVSCodeRange R := by
  induction vars with
  | nil => simp [editExistingNamespace] at he
  | cons v vs ih =>
    simp only [editExistingNamespace, List.mem_cons] at he
    rcases he with he | he | he
    · left
      rw [he]
    · right
      rw [he]
    · exact ih he

/-- C3 witness: the amended statement at a concrete edit of the
counterexample's batch. -/
theorem C3_witness :
    (⟨⟨80, 81⟩, defaultIndent ++ c3VarB.content
        ++ '\n' :: defaultIndent ++ ['}']⟩ : TextEdit).newText = [] ∨
    (⟨⟨80, 81⟩, defaultIndent ++ c3VarB.content
        ++ '\n' :: defaultIndent ++ ['}']⟩ : TextEdit).range
      = slangToVSCodeRange ⟨80, 81⟩ :=
  C3_amended_insertions_share_range [c3VarA, c3VarB] ⟨80, 81⟩ _ (by decide)

/-- Concrete inputs for C4: a contract `Main` whose first close-brace leaf
(offsets 5–6, e.g. the body of a function declared before the container)
precedes the tagged documentation comment; the container's own closing
delimiter is the close brace at offsets 60–61, the first one after the
comment. -/
def c4Contract : ContractNode :=
  ⟨"Main".toList, true,
    [⟨TKind.closeBrace, ['}'], ⟨5, 6⟩⟩,
     ⟨TKind.singleLineNatSpecComment,
      "/// @custom:storage-location erc7201:box.Main".toList, ⟨10, 56⟩⟩,
     ⟨TKind.closeBrace, ['}'], ⟨60, 61⟩⟩,
     ⟨TKind.closeBrace, ['}'], ⟨70, 71⟩⟩],
    [], ⟨0, 80⟩⟩

/-- C4 counterexample: the claim says the returned insertion point is the
range of the matching container's closing delimiter.  The code spawns the
close-brace cursor from the contract's start, not from the comment, so it
returns the first close-brace leaf of the whole contract (offsets 5–6) —
which precedes the tagged comment and cannot belong to the container —
while the detector worded as in the spec ("advances to the next
closing-delimiter leaf") returns the container's delimiter at 60–61. -/
theorem C4_counterexample :
    getNamespaceStructEndRange c4Contract "box".toList "Main".toList
      = some ⟨5, 6⟩ ∧
    detectAsSpecified c4Contract "box".toList "Main".toList
      = some ⟨60, 61⟩ := by
  decide

/-- C4 amended: the detector returns an insertion point exactly when the
first single-line documentation-comment leaf of the contract contains the
tag `@custom:storage-location erc7201:<id>` with
`id = getNamespaceId(prefix, contractName)` (absence of the comment and a
non-matching id both yield none); the returned insertion point is the
range of the first close-brace leaf of the whole contract, counted from
the contract's start — it equals the matching container's closing
delimiter only when no close brace precedes it. -/
theorem C4_amended_first_close_brace (c : ContractNode) (pfx cn : List Char) :
    ((getNamespaceStructEndRange c pfx cn).isSome =
      (match firstLeafOfKind c.leaves TKind.singleLineNatSpecComment with
       | some l => containsSubB l.text (nsTag pfx cn)
       | none => false)) ∧
    (∀ r, getNamespaceStructEndRange c pfx cn = some r →
      r = (match firstLeafOfKind c.leaves TKind.closeBrace with
           | some cb => cb.range
           | none => c.crange)) := by
  constructor
  · unfold getNamespaceStructEndRange
    cases h : firstLeafOfKind c.leaves TKind.singleLineNatSpecComment with
    | none => rfl
    | some l =>
      cases hc : containsSubB l.text (nsTag pfx cn) with
      | false => simp [hc]
      | true =>
        cases hcb : firstLeafOfKind c.leaves TKind.closeBrace with
        | none => simp [hc, hcb]
        | some cb => simp [hc, hcb]
  · intro r hr
    unfold getNamespaceStructEndRange at hr
    cases h : firstLeafOfKind c.leaves TKind.singleLineNatSpecComment with
    | none => rw [h] at hr; exact absurd hr (by simp)
    | some l =>
      rw [h] at hr
      dsimp only at hr
      by_cases hc : containsSubB l.text (nsTag pfx cn) = true
      · rw [if_pos hc] at hr
        cases hcb : firstLeafOfKind c.leaves TKind.closeBrace with
        | none =>
          rw [hcb] at hr
          simp only [Option.some.injEq] at hr
          rw [← hr]
        | some cb =>
          rw [hcb] at hr
          simp only [Option.some.injEq] at hr
          rw [← hr]
      · rw [if_neg hc] at hr
        exact absurd hr (by simp)

/-- C4 witness: the amended characterization applied at the
counterexample's contract — the returned range 5–6 is the first
close-brace leaf of the contract. -/
theorem C4_witness :
    (⟨5, 6⟩ : TRange) =
      (match firstLeafOfKind c4Contract.leaves TKind.closeBrace with
       | some cb => cb.range
       | none => c4Contract.crange) :=
  (C4_amended_first_close_brace c4Contract "box".toList "Main".toList).2
    ⟨5, 6⟩ (by decide)

/-- C5: when no existing container is detected and the variable list is
non-empty, the fix's container edits — the suffix the container strategy
appends after the function-body edits — consist of exactly one edit
replacing variable[0]'s range with the printed namespace template,
followed by exactly one empty-text edit for every other variable. -/
theorem C5_new_container_edits (diags : List Diagnostic)
    (title pfx cn : List Char) (v : Variable) (vs : List Variable)
    (doc : Document)
    (hnone : (locateContract doc.contracts cn).bind
      (fun c => getNamespaceStructEndRange c pfx cn) = none) :
    getMoveAllVariablesToNamespaceQuickFix diags title pfx cn (v :: vs) doc =
      some ⟨title, doc.uri,
        bodyEditsFor cn (v :: vs) (locateContract doc.contracts cn)
          ++ ⟨v.range, printNamespaceTemplate ⟨cn, pfx, v :: vs⟩⟩
            :: vs.map (fun w => ⟨w.range, []⟩),
        diags⟩ := by
  simp only [getMoveAllVariablesToNamespaceQuickFix, hnone, editNewNamespace]
  simp

/-- C5 witness: a document without any contract node — nothing is located,
so no container is detected — and two variables; the fix consists of the
template edit at the first variable's range and a deletion of the
second. -/
theorem C5_witness :
    getMoveAllVariablesToNamespaceQuickFix [] "t".toList "box".toList
      "Main".toList
      [⟨['a'], "uint256 a;".toList, ⟨10, 20⟩⟩,
       ⟨['b'], "address b;".toList, ⟨21, 31⟩⟩]
      ⟨"file:///a.sol".toList, []⟩ =
    some ⟨"t".toList, ("file:///a.sol".toList : List Char),
      bodyEditsFor "Main".toList
          [⟨['a'], "uint256 a;".toList, ⟨10, 20⟩⟩,
           ⟨['b'], "address b;".toList, ⟨21, 31⟩⟩]
          (locateContract ([] : List ContractNode) "Main".toList)
        ++ ⟨⟨10, 20⟩, printNamespaceTemplate ⟨"Main".toList, "box".toList,
              [⟨['a'], "uint256 a;".toList, ⟨10, 20⟩⟩,
               ⟨['b'], "address b;".toList, ⟨21, 31⟩⟩]⟩⟩
          :: ([⟨['b'], "address b;".toList, ⟨21, 31⟩⟩] : List Variable).map
              (fun w => ⟨w.range, []⟩),
      []⟩ :=
  C5_new_container_edits [] "t".toList "box".toList "Main".toList
    ⟨['a'], "uint256 a;".toList, ⟨10, 20⟩⟩
    [⟨['b'], "address b;".toList, ⟨21, 31⟩⟩]
    ⟨"file:///a.sol".toList, []⟩ (by decide)

/-- Every variable's deletion edit occurs in `editExistingNamespace`'s
batch, in declaration order (as a sublist). -/
theorem editExistingNamespace_deletions (vars : List Variable) (R : TRange) :
    (vars.map fun w => (⟨w.range, []⟩ : TextEdit)).Sublist
      (editExistingNamespace vars R) := by
  induction vars with
  | nil => simp [editExistingNamespace]
  | cons v vs ih =>
    simp only [List.map_cons, editExistingNamespace]
    exact List.Sublist.cons₂ _ (List.Sublist.cons _ ih)

/-- The non-deletion edits of `editExistingNamespace`'s batch are exactly,
in declaration order, one insertion per variable at the (translated)
struct-end range, carrying the indented declaration text followed by an
indented closing brace. -/
theorem editExistingNamespace_insertions (vars : List Variable) (R : TRange) :
    (editExistingNamespace vars R).filter (fun e => !e.newText.isEmpty) =
      vars.map (fun w =>
        ⟨slangToVSCodeRange R,
         defaultIndent ++ w.content ++ '\n' :: defaultIndent ++ ['}']⟩) := by
  induction vars with
  | nil => simp [editExistingNamespace]
  | cons v vs ih =>
    simp only [editExistingNamespace, List.filter_cons, List.map_cons]
    rw [ih]
    simp [defaultIndent]

/-- C6: when an existing container is detected at insertion point `R`,
the returned fix's edits are the function-body edits followed by the
existing-container batch, in which every variable's range receives an
empty-text edit (in declaration order, as a sublist) and the insertion
edits are exactly, in declaration order, one per variable at `R`,
carrying the variable's raw declaration text followed by a closing
line — so the edits append the declarations before the container's
closing delimiter in the input declaration order. -/
theorem C6_existing_container_edits (diags : List Diagnostic)
    (title pfx cn : List Char) (v : Variable) (vs : List Variable)
    (doc : Document) (c : ContractNode) (R : TRange)
    (hloc : locateContract doc.contracts cn = some c)
    (hdet : getNamespaceStructEndRange c pfx cn = some R) :
    getMoveAllVariablesToNamespaceQuickFix diags title pfx cn (v :: vs) doc =
      some ⟨title, doc.uri,
        bodyEditsFor cn (v :: vs) (some c)
          ++ editExistingNamespace (v :: vs) R,
        diags⟩ ∧
    ((v :: vs).map fun w => (⟨w.range, []⟩ : TextEdit)).Sublist
      (editExistingNamespace (v :: vs) R) ∧
    (editExistingNamespace (v :: vs) R).filter (fun e => !e.newText.isEmpty) =
      (v :: vs).map (fun w =>
        ⟨slangToVSCodeRange R,
         defaultIndent ++ w.content ++ '\n' :: defaultIndent ++ ['}']⟩) := by
  refine ⟨?_, editExistingNamespace_deletions _ _,
    editExistingNamespace_insertions _ _⟩
  simp only [getMoveAllVariablesToNamespaceQuickFix, hloc, Option.some_bind]
  rw [hdet]
  simp

/-- Concrete inputs for the C6 witness: a document holding one valid
contract `Main` with a matching tagged container whose close-brace leaf
spans offsets 80–81, and two variables. -/
def c6Contract : ContractNode :=
  ⟨"Main".toList, true,
    [⟨TKind.singleLineNatSpecComment,
      "/// @custom:storage-location erc7201:box.Main".toList, ⟨30, 76⟩⟩,
     ⟨TKind.closeBrace, ['}'], ⟨80, 81⟩⟩],
    [], ⟨0, 100⟩⟩

def c6Doc : Document := ⟨"file:///b.sol".toList, [c6Contract]⟩

def c6VarA : Variable := ⟨['a'], "uint256 a;".toList, ⟨10, 20⟩⟩

def c6VarB : Variable := ⟨['b'], "address b;".toList, ⟨21, 31⟩⟩

/-- C6 witness: the existing-container characterization at the concrete
document. -/
theorem C6_witness :
    getMoveAllVariablesToNamespaceQuickFix [] "t".toList "box".toList
      "Main".toList [c6VarA, c6VarB] c6Doc =
      some ⟨"t".toList, c6Doc.uri,
        bodyEditsFor "Main".toList [c6VarA, c6VarB] (some c6Contract)
          ++ editExistingNamespace [c6VarA, c6VarB] ⟨80, 81⟩,
        []⟩ ∧
    ([c6VarA, c6VarB].map fun w => (⟨w.range, []⟩ : TextEdit)).Sublist
      (editExistingNamespace [c6VarA, c6VarB] ⟨80, 81⟩) ∧
    (editExistingNamespace [c6VarA, c6VarB] ⟨80, 81⟩).filter
        (fun e => !e.newText.isEmpty) =
      [c6VarA, c6VarB].map (fun w =>
        ⟨slangToVSCodeRange ⟨80, 81⟩,
         defaultIndent ++ w.content ++ '\n' :: defaultIndent ++ ['}']⟩) :=
  C6_existing_container_edits [] "t".toList "box".toList "Main".toList
    c6VarA [c6VarB] c6Doc c6Contract ⟨80, 81⟩ (by decide) (by decide)

/-- C8: the contract locator skips nodes whose reconstituted text does not
re-parse without errors, skips name mismatches, stops at the first node
whose name equals the requested one — later nodes, same-named or not, are
never consulted, since the result is independent of them — and yields
none when no node matches. -/
theorem C8_locator_first_valid_match :
    (∀ (post : List ContractNode) (pre : List ContractNode)
      (c : ContractNode) (cn : List Char),
      (∀ c' ∈ pre, c'.validReparse = false ∨ c'.name ≠ cn) →
      c.validReparse = true → c.name = cn →
      locateContract (pre ++ c :: post) cn = some c) ∧
    (∀ (cs : List ContractNode) (cn : List Char),
      (∀ c' ∈ cs, c'.validReparse = false ∨ c'.name ≠ cn) →
      locateContract cs cn = none) := by
  constructor
  · intro post pre c cn
    induction pre with
    | nil =>
      intro _ hv hn
      simp only [List.nil_append, locateContract]
      rw [if_neg (by simp [hv]), if_neg (by simp [hn])]
    | cons d pre' ih =>
      intro hpre hv hn
      have hd := hpre d (List.mem_cons_self _ _)
      have ih' := ih (fun c' hc' => hpre c' (List.mem_cons_of_mem _ hc')) hv hn
      simp only [List.cons_append, locateContract]
      rcases hd with hd | hd
      · rw [if_pos hd]
        exact ih'
      · by_cases hdv : d.validReparse = false
        · rw [if_pos hdv]
          exact ih'
        · rw [if_neg hdv, if_pos hd]
          exact ih'
  · intro cs cn
    induction cs with
    | nil => intro _; rfl
    | cons d rest ih =>
      intro h
      have hd := h d (List.mem_cons_self _ _)
      have ih' := ih fun c' hc' => h c' (List.mem_cons_of_mem _ hc')
      simp only [locateContract]
      rcases hd with hd | hd
      · rw [if_pos hd]
        exact ih'
      · by_cases hdv : d.validReparse = false
        · rw [if_pos hdv]
          exact ih'
        · rw [if_neg hdv, if_pos hd]
          exact ih'

/-- C8 witness: an invalid contract named `Main` is skipped, the first
valid `Main` is located, and a later valid contract also named `Main` is
never considered. -/
theorem C8_witness :
    locateContract
      [⟨"Main".toList, false, [], [], ⟨0, 5⟩⟩,
       ⟨"Main".toList, true, [], [], ⟨6, 10⟩⟩,
       ⟨"Main".toList, true, [], [], ⟨11, 15⟩⟩] "Main".toList
      = some ⟨"Main".toList, true, [], [], ⟨6, 10⟩⟩ :=
  C8_locator_first_valid_match.1 [⟨"Main".toList, true, [], [], ⟨11, 15⟩⟩]
    [⟨"Main".toList, false, [], [], ⟨0, 5⟩⟩]
    ⟨"Main".toList, true, [], [], ⟨6, 10⟩⟩ "Main".toList
    (by decide) (by decide) (by decide)

/-- C9: for every input whose candidate variable list is empty, the quick
fix returns no fix, regardless of the document's content. -/
theorem C9_empty_variable_list_no_fix (diags : List Diagnostic)
    (title pfx cn : List Char) (doc : Document) :
    getMoveAllVariablesToNamespaceQuickFix diags title pfx cn [] doc
      = none := by
  simp [getMoveAllVariablesToNamespaceQuickFix]

/-- With no contract of the requested name present, the locator yields
none. -/
theorem locateContract_eq_none_of_no_name (cs : List ContractNode)
    (cn : List Char) (h : ∀ c ∈ cs, c.name ≠ cn) :
    locateContract cs cn = none := by
  induction cs with
  | nil => rfl
  | cons d rest ih =>
    have hd : d.name ≠ cn := h d (List.mem_cons_self _ _)
    have ih' := ih fun c' hc' => h c' (List.mem_cons_of_mem _ hc')
    simp only [locateContract]
    by_cases hdv : d.validReparse = false
    · rw [if_pos hdv]
      exact ih'
    · rw [if_neg hdv, if_pos hd]
      exact ih'

/-- C10: when the document contains no contract definition named
`contractName` and the variable list is non-empty, the function still
returns a fix: it consists solely of the new-container edits (the
template at variable[0]'s range, deletions for the rest, as
`editNewNamespace` produces them) and contains no function-body edits. -/
theorem C10_no_matching_contract_still_fix (diags : List Diagnostic)
    (title pfx cn : List Char) (v : Variable) (vs : List Variable)
    (doc : Document) (h : ∀ c ∈ doc.contracts, c.name ≠ cn) :
    getMoveAllVariablesToNamespaceQuickFix diags title pfx cn (v :: vs) doc =
      some ⟨title, doc.uri, editNewNamespace pfx cn (v :: vs), diags⟩ := by
  have hloc : locateContract doc.contracts cn = none :=
    locateContract_eq_none_of_no_name _ _ h
  simp [getMoveAllVariablesToNamespaceQuickFix, hloc, bodyEditsFor]

/-- C10 witness: a document holding only a contract named `Other`; the
fix for `Main` is exactly the new-container edits. -/
theorem C10_witness :
    getMoveAllVariablesToNamespaceQuickFix [] "t".toList "box".toList
      "Main".toList [⟨['a'], "uint256 a;".toList, ⟨10, 20⟩⟩]
      ⟨"file:///c.sol".toList, [⟨"Other".toList, true, [], [], ⟨0, 10⟩⟩]⟩ =
    some ⟨"t".toList, ("file:///c.sol".toList : List Char),
      editNewNamespace "box".toList "Main".toList
        [⟨['a'], "uint256 a;".toList, ⟨10, 20⟩⟩],
      []⟩ :=
  C10_no_matching_contract_still_fix [] "t".toList "box".toList
    "Main".toList ⟨['a'], "uint256 a;".toList, ⟨10, 20⟩⟩ []
    ⟨"file:///c.sol".toList, [⟨"Other".toList, true, [], [], ⟨0, 10⟩⟩]⟩
    (by decide)

end OZQuickFix
